import Mathlib

/-!
Verification of the trajectory aggregation and policy-selection pipeline
described for the `ml-cfd-lecture` repository.  The repository itself ships
only markdown exercise instructions (notebooks/cylinder_drl_exercise.ipynb);
the pipeline below is the post-processing component those instructions ask
students to build: load per-episode observation files, extract per-trajectory
metrics, aggregate mean rewards per episode, and select the best policy.
Every definition is modelled from the specification, since no implementation
exists in the repository sources.
-/

/-- Modelled from the spec: the error taxonomy of section 7 for the
trajectory pipeline, which is absent from the repository sources.
`MissingFile` (expected episode artifact absent), `MalformedTrajectory`
(required field absent or mistyped), `NoEpisodes` (input set empty after
filtering). -/
inductive PipelineError where
  | MissingFile : PipelineError
  | MalformedTrajectory : PipelineError
  | NoEpisodes : PipelineError
  deriving DecidableEq, Repr

/-- Modelled from the spec: a raw, just-deserialized trajectory record whose
named experience fields (state, action, reward, next-state) and auxiliary
force-coefficient series (drag, lift) may each be absent, as happens for a
malformed observations file.  The repository sources contain no such type. -/
structure RawTrajectory where
  states : Option (List ℚ)
  actions : Option (List ℚ)
  rewards : Option (List ℚ)
  nextStates : Option (List ℚ)
  drag : Option (List ℚ)
  lift : Option (List ℚ)
  deriving DecidableEq, Repr

/-- Modelled from the spec: a validated Trajectory, an ordered sequence of
experience tuples (state, action, reward, next-state per control step) plus
auxiliary scalar series (drag coefficient, lift coefficient); immutable once
loaded. -/
structure Trajectory where
  states : List ℚ
  actions : List ℚ
  rewards : List ℚ
  nextStates : List ℚ
  drag : List ℚ
  lift : List ℚ
  deriving DecidableEq, Repr

/-- Modelled from the spec: validation of a raw trajectory record; fails with
`MalformedTrajectory` exactly when a required named field is absent. -/
def validateTrajectory (r : RawTrajectory) : Except PipelineError Trajectory :=
  match r.states, r.actions, r.rewards, r.nextStates, r.drag, r.lift with
  | some s, some a, some rw, some ns, some d, some l =>
      Except.ok ⟨s, a, rw, ns, d, l⟩
  | _, _, _, _, _, _ => Except.error PipelineError.MalformedTrajectory

/-- Modelled from the spec: the fixed record the Metric Extractor returns:
time-indexed drag coefficient series, time-indexed lift coefficient series,
and time-indexed expected control-action series. -/
structure Metrics where
  dragSeries : List ℚ
  liftSeries : List ℚ
  actionSeries : List ℚ
  deriving DecidableEq, Repr

/-- Modelled from the spec: the Metric Extractor (section 4.2), a pure
function from a validated Trajectory to its fixed metric record. -/
def extractMetrics (t : Trajectory) : Metrics :=
  ⟨t.drag, t.lift, t.actions⟩

/-- Modelled from the spec: metric extraction from a raw record: validation
followed by pure extraction, so the only failure mode is the propagated
`MalformedTrajectory`. -/
def extractMetricsRaw (r : RawTrajectory) : Except PipelineError Metrics :=
  (validateTrajectory r).map extractMetrics

/-- Modelled from the spec: the per-trajectory average reward.  Each
trajectory, whatever its length, is averaged independently (section 4.3). -/
def trajMeanReward (t : Trajectory) : ℚ :=
  t.rewards.sum / t.rewards.length

/-- Modelled from the spec: the per-trajectory mean action magnitude, the
second field of a PolicySummary (section 3). -/
def trajMeanActionMag (t : Trajectory) : ℚ :=
  (t.actions.map (fun a => |a|)).sum / t.actions.length

/-- Modelled from the spec: the valid trajectories of an episode, obtained by
validating each raw record and skipping the malformed ones (recovered
locally, excluded from aggregation). -/
def validTrajectories (raws : List RawTrajectory) : List Trajectory :=
  raws.filterMap (fun r => (validateTrajectory r).toOption)

/-- Modelled from the spec: the count of malformed (skipped) trajectories of
an episode; per-trajectory errors are logged and counted. -/
def malformedCount (raws : List RawTrajectory) : ℕ :=
  raws.countP (fun r => (validateTrajectory r).toOption.isNone)

/-- Modelled from the spec: the derived per-episode aggregate: episode index,
mean reward, mean action magnitude; computed, never persisted. -/
structure PolicySummary where
  epIndex : ℕ
  meanReward : ℚ
  meanActionMagnitude : ℚ
  deriving DecidableEq, Repr

/-- Modelled from the spec: the Reward Aggregator (section 4.3) joined with
the exclusion policy of section 7: an Episode with zero valid Trajectories is
excluded entirely (`none`) rather than scored with a sentinel value;
otherwise the summary holds the arithmetic mean of the independently averaged
per-trajectory rewards. -/
def summarizeEpisode (i : ℕ) (raws : List RawTrajectory) : Option PolicySummary :=
  let valids := validTrajectories raws
  if valids.isEmpty then none
  else some
    { epIndex := i
      meanReward := (valids.map trajMeanReward).sum / valids.length
      meanActionMagnitude := (valids.map trajMeanActionMag).sum / valids.length }

/-- Modelled from the spec: the selection key of a summary: its mean reward,
tie-broken by episode index (section 4.3). -/
def summaryKey (s : PolicySummary) : ℚ × ℕ :=
  (s.meanReward, s.epIndex)

/-- Modelled from the spec: comparison of two selection keys: the challenger
`q` replaces the incumbent `p` exactly when it has strictly greater mean
reward, or equal mean reward and strictly lower episode index. -/
def betterKey (p q : ℚ × ℕ) : ℚ × ℕ :=
  if p.1 < q.1 ∨ (p.1 = q.1 ∧ q.2 < p.2) then q else p

/-- Modelled from the spec: fold step of the Policy Selector over an optional
incumbent key. -/
def betterOpt (acc : Option (ℚ × ℕ)) (q : ℚ × ℕ) : Option (ℚ × ℕ) :=
  match acc with
  | none => some q
  | some p => some (betterKey p q)

/-- Modelled from the spec: the Policy Selector (section 4.4): given the
per-episode summaries, returns the episode index with maximal mean reward,
ties broken by lowest episode index; fails with `NoEpisodes` if the input set
is empty. -/
def selectBest (summaries : List PolicySummary) : Except PipelineError ℕ :=
  match (summaries.map summaryKey).foldl betterOpt none with
  | none => Except.error PipelineError.NoEpisodes
  | some p => Except.ok p.2

/-- Modelled from the spec: the directory of per-episode observation files,
a read-only map from episode index to the optional raw content of its
observations file.  The repository sources contain no loader code. -/
structure FileSystem where
  files : ℕ → Option (List RawTrajectory)

/-- Modelled from the spec: the Trajectory Loader (section 4.1): given the
expected episode indices, produces the (episode index, raw trajectory list)
pairs of the discovered files, skipping absent indices, never renumbering. -/
def loadEpisodes (fs : FileSystem) (indices : List ℕ) : List (ℕ × List RawTrajectory) :=
  indices.filterMap (fun i => (fs.files i).map (fun f => (i, f)))

/-- Modelled from the spec: the warnings emitted by the Trajectory Loader,
one `MissingFile` warning per expected index whose file is absent. -/
def missingWarnings (fs : FileSystem) (indices : List ℕ) : List ℕ :=
  indices.filter (fun i => (fs.files i).isNone)

/-- Modelled from the spec: the per-episode summaries of a run: each loaded
episode is aggregated, and episodes with zero valid trajectories are
excluded. -/
def pipelineSummaries (fs : FileSystem) (indices : List ℕ) : List PolicySummary :=
  (loadEpisodes fs indices).filterMap (fun p => summarizeEpisode p.1 p.2)

/-- Modelled from the spec: the whole pipeline: load, aggregate, select; a
pure, one-shot batch transformation. -/
def runPipeline (fs : FileSystem) (indices : List ℕ) : Except PipelineError ℕ :=
  selectBest (pipelineSummaries fs indices)

/-- Modelled from the spec: the summary contributed to a run by a single
episode index: none when the file is absent or the episode has no valid
trajectory, the aggregate summary otherwise. -/
def episodeContribution (fs : FileSystem) (j : ℕ) : Option PolicySummary :=
  (fs.files j).bind (fun f => summarizeEpisode j f)

/-- Modelled from the spec: a raw trajectory fixture with the given reward
series and trivial remaining fields. -/
def mkTraj (rw : List ℚ) : RawTrajectory :=
  ⟨some [], some [1], some rw, some [], some [], some []⟩

/-- Modelled from the spec: a raw trajectory record whose required reward
field is missing, as in the scenario of section 8. -/
def noRewardTraj : RawTrajectory :=
  ⟨some [], some [1], none, some [], some [], some []⟩

/-- Modelled from the spec: the tie-break scenario of section 8: episodes 0,
1, 2 with mean rewards 1.2, 3.4, 3.4. -/
def tieSummaries : List PolicySummary :=
  [⟨0, 12/10, 0⟩, ⟨1, 34/10, 0⟩, ⟨2, 34/10, 0⟩]

/-- Modelled from the spec: the missing-file scenario of section 8: a run
over indices 0..3 whose observations file for index 2 is absent; episode 1
has the best mean reward. -/
def fsMissing2 : FileSystem :=
  ⟨fun i => match i with
    | 0 => some [mkTraj [1, 3]]
    | 1 => some [mkTraj [5], mkTraj [7]]
    | 3 => some [mkTraj [3]]
    | _ => none⟩

/-- Modelled from the spec: a run whose only episode has a single trajectory
with a missing reward field, so that filtering empties the whole set. -/
def fsOnlyInvalid : FileSystem :=
  ⟨fun i => match i with
    | 0 => some [noRewardTraj]
    | _ => none⟩

/-- Modelled from the spec: a run with one excluded episode (missing reward
field) and one valid episode. -/
def fsMixed : FileSystem :=
  ⟨fun i => match i with
    | 0 => some [noRewardTraj]
    | 1 => some [mkTraj [2]]
    | _ => none⟩

/-- Modelled from the spec: a fixture run over episodes 0 and 1. -/
def fsA : FileSystem :=
  ⟨fun i => match i with
    | 0 => some [mkTraj [1, 3]]
    | 1 => some [mkTraj [5]]
    | _ => none⟩

/-- Modelled from the spec: a second fixture agreeing with `fsA` on episodes
0 and 1 but holding an extra file at index 7. -/
def fsB : FileSystem :=
  ⟨fun i => match i with
    | 0 => some [mkTraj [1, 3]]
    | 1 => some [mkTraj [5]]
    | 7 => some [mkTraj [100]]
    | _ => none⟩

/-- The dominance order on selection keys: `dominatesKey r q` holds when the
key `r` would survive against `q`: strictly higher mean reward, or equal mean
reward and an episode index at most that of `q`. -/
def dominatesKey (r q : ℚ × ℕ) : Prop :=
  q.1 < r.1 ∨ (q.1 = r.1 ∧ r.2 ≤ q.2)

lemma dominatesKey_refl (p : ℚ × ℕ) : dominatesKey p p :=
  Or.inr ⟨rfl, le_refl _⟩

lemma dominatesKey_trans {a b c : ℚ × ℕ} (hab : dominatesKey a b)
    (hbc : dominatesKey b c) : dominatesKey a c := by
  rcases hab with h | ⟨h1, h2⟩ <;> rcases hbc with h' | ⟨h1', h2'⟩
  · exact Or.inl (lt_trans h' h)
  · exact Or.inl (h1' ▸ h)
  · exact Or.inl (h1 ▸ h')
  · exact Or.inr ⟨h1'.trans h1, le_trans h2 h2'⟩

lemma dominatesKey_antisymm {p q : ℚ × ℕ} (hpq : dominatesKey p q)
    (hqp : dominatesKey q p) : p = q := by
  rcases hpq with h | ⟨h1, h2⟩ <;> rcases hqp with h' | ⟨h1', h2'⟩
  · exact absurd h (not_lt_of_lt h')
  · exact absurd h (h1' ▸ lt_irrefl _)
  · exact absurd h' (h1 ▸ lt_irrefl _)
  · exact Prod.ext h1' (le_antisymm h2 h2')

lemma betterKey_cases (p q : ℚ × ℕ) : betterKey p q = p ∨ betterKey p q = q := by
  unfold betterKey; split_ifs <;> simp

lemma betterKey_dom_left (p q : ℚ × ℕ) : dominatesKey (betterKey p q) p := by
  unfold betterKey
  split_ifs with h
  · rcases h with h | ⟨h1, h2⟩
    · exact Or.inl h
    · exact Or.inr ⟨h1, le_of_lt h2⟩
  · exact dominatesKey_refl p

lemma betterKey_dom_right (p q : ℚ × ℕ) : dominatesKey (betterKey p q) q := by
  unfold betterKey
  split_ifs with h
  · exact dominatesKey_refl q
  · push_neg at h
    rcases lt_or_eq_of_le h.1 with h' | h'
    · exact Or.inl h'
    · exact Or.inr ⟨h', h.2 h'.symm⟩

lemma foldl_betterOpt_spec (ks : List (ℚ × ℕ)) (p : ℚ × ℕ) :
    ∃ r, ks.foldl betterOpt (some p) = some r ∧ (r = p ∨ r ∈ ks) ∧
      dominatesKey r p ∧ ∀ q ∈ ks, dominatesKey r q := by
  induction ks generalizing p with
  | nil => exact ⟨p, rfl, Or.inl rfl, dominatesKey_refl p, by simp⟩
  | cons k ks ih =>
      obtain ⟨r, hr, hmem, hdomp, hall⟩ := ih (betterKey p k)
      refine ⟨r, by simpa [betterOpt] using hr, ?_, ?_, ?_⟩
      · rcases hmem with h | h
        · rcases betterKey_cases p k with hc | hc
          · exact Or.inl (h.trans hc)
          · exact Or.inr (by rw [h, hc]; exact List.mem_cons_self k ks)
        · exact Or.inr (List.mem_cons_of_mem k h)
      · exact dominatesKey_trans hdomp (betterKey_dom_left p k)
      · intro q hq
        rcases List.mem_cons.mp hq with h | h
        · exact h ▸ dominatesKey_trans hdomp (betterKey_dom_right p k)
        · exact hall q h

lemma selectBest_nil : selectBest [] = Except.error PipelineError.NoEpisodes := rfl

lemma selectBest_ok_exists {l : List PolicySummary} (h : l ≠ []) :
    ∃ s, s ∈ l ∧ selectBest l = Except.ok s.epIndex ∧
      ∀ t ∈ l, dominatesKey (summaryKey s) (summaryKey t) := by
  match l with
  | [] => exact absurd rfl h
  | s₀ :: rest =>
      obtain ⟨r, hr, hmem, hdomp, hall⟩ :=
        foldl_betterOpt_spec (rest.map summaryKey) (summaryKey s₀)
      have hrmem : r ∈ (s₀ :: rest).map summaryKey := by
        rcases hmem with h' | h'
        · simp [h']
        · exact List.mem_cons_of_mem _ h'
      obtain ⟨s, hs, hkey⟩ := List.mem_map.mp hrmem
      refine ⟨s, hs, ?_, ?_⟩
      · show selectBest (s₀ :: rest) = _
        unfold selectBest
        simp only [List.map_cons, List.foldl_cons]
        have : betterOpt none (summaryKey s₀) = some (summaryKey s₀) := rfl
        rw [this, hr, ← hkey]
        rfl
      · intro t ht
        rcases List.mem_cons.mp ht with h' | h'
        · exact h' ▸ hkey ▸ hdomp
        · exact hkey ▸ hall (summaryKey t) (List.mem_map_of_mem summaryKey h')

lemma selectBest_error_iff (l : List PolicySummary) :
    selectBest l = Except.error PipelineError.NoEpisodes ↔ l = [] := by
  constructor
  · intro h
    by_contra hne
    obtain ⟨s, _, hok, _⟩ := selectBest_ok_exists hne
    rw [hok] at h
    exact Except.noConfusion h
  · intro h; subst h; rfl

lemma selectBest_ok_sound {l : List PolicySummary} {i : ℕ}
    (h : selectBest l = Except.ok i) :
    ∃ s ∈ l, s.epIndex = i ∧ ∀ t ∈ l, dominatesKey (summaryKey s) (summaryKey t) := by
  have hne : l ≠ [] := by
    rintro rfl
    rw [selectBest_nil] at h
    exact Except.noConfusion h
  obtain ⟨s, hs, hok, hall⟩ := selectBest_ok_exists hne
  rw [hok] at h
  exact ⟨s, hs, (Except.ok.injEq _ _).mp h, hall⟩

lemma selectBest_perm {l l' : List PolicySummary} (h : l.Perm l') :
    selectBest l = selectBest l' := by
  rcases eq_or_ne l [] with rfl | hne
  · rw [h.nil_eq.symm]
  · have hne' : l' ≠ [] := by
      intro h0
      exact hne (List.Perm.eq_nil (h0 ▸ h))
    obtain ⟨s, hs, hok, hall⟩ := selectBest_ok_exists hne
    obtain ⟨s', hs', hok', hall'⟩ := selectBest_ok_exists hne'
    have h1 : dominatesKey (summaryKey s) (summaryKey s') :=
      hall s' (h.mem_iff.mpr hs')
    have h2 : dominatesKey (summaryKey s') (summaryKey s) :=
      hall' s (h.mem_iff.mp hs)
    have hk : summaryKey s = summaryKey s' := dominatesKey_antisymm h1 h2
    have hi : s.epIndex = s'.epIndex := congrArg Prod.snd hk
    rw [hok, hok', hi]

lemma loadEpisodes_map_fst (fs : FileSystem) (idx : List ℕ) :
    (loadEpisodes fs idx).map Prod.fst =
      idx.filter (fun i => (fs.files i).isSome) := by
  induction idx with
  | nil => rfl
  | cons j rest ih =>
      unfold loadEpisodes at ih ⊢
      cases h : fs.files j <;>
        simp [List.filterMap_cons, List.filter_cons, h, ih]

lemma loadEpisodes_mem {fs : FileSystem} {idx : List ℕ} {i : ℕ}
    {f : List RawTrajectory} (h : (i, f) ∈ loadEpisodes fs idx) :
    fs.files i = some f ∧ i ∈ idx := by
  unfold loadEpisodes at h
  obtain ⟨j, hj, hjf⟩ := List.mem_filterMap.mp h
  cases hf : fs.files j with
  | none => rw [hf] at hjf; exact absurd hjf (by simp)
  | some g =>
      rw [hf] at hjf
      simp only [Option.map_some', Option.some.injEq, Prod.mk.injEq] at hjf
      obtain ⟨rfl, rfl⟩ := hjf
      exact ⟨hf, hj⟩

lemma missingWarnings_mem (fs : FileSystem) (idx : List ℕ) (i : ℕ) :
    i ∈ missingWarnings fs idx ↔ i ∈ idx ∧ fs.files i = none := by
  simp [missingWarnings, List.mem_filter, Option.isNone_iff_eq_none]

lemma summarizeEpisode_epIndex {i : ℕ} {raws : List RawTrajectory}
    {s : PolicySummary} (h : summarizeEpisode i raws = some s) : s.epIndex = i := by
  by_cases hc : (validTrajectories raws).isEmpty
  · simp [summarizeEpisode, hc] at h
  · simp only [summarizeEpisode, hc, Bool.false_eq_true, if_false,
      Option.some.injEq] at h
    rw [← h]

lemma pipelineSummaries_cons (fs : FileSystem) (j : ℕ) (rest : List ℕ) :
    pipelineSummaries fs (j :: rest) =
      (episodeContribution fs j).toList ++ pipelineSummaries fs rest := by
  unfold pipelineSummaries loadEpisodes episodeContribution
  cases h : fs.files j with
  | none => simp [List.filterMap_cons, h]
  | some f =>
      cases hs : summarizeEpisode j f <;>
        simp [List.filterMap_cons, h, hs]

lemma episodeContribution_epIndex {fs : FileSystem} {j : ℕ} {s : PolicySummary}
    (h : episodeContribution fs j = some s) : s.epIndex = j := by
  unfold episodeContribution at h
  cases hf : fs.files j with
  | none => rw [hf] at h; exact absurd h (by simp)
  | some f =>
      rw [hf] at h
      exact summarizeEpisode_epIndex h

lemma pipelineSummaries_map_fst_sublist (fs : FileSystem) (idx : List ℕ) :
    List.Sublist ((pipelineSummaries fs idx).map PolicySummary.epIndex) idx := by
  induction idx with
  | nil => simp [pipelineSummaries, loadEpisodes]
  | cons j rest ih =>
      rw [pipelineSummaries_cons]
      cases h : episodeContribution fs j with
      | none => simpa using ih.cons j
      | some s =>
          have hs : s.epIndex = j := episodeContribution_epIndex h
          simpa [hs] using ih.cons₂ j

lemma pipelineSummaries_mem_fst {fs : FileSystem} {idx : List ℕ}
    {s : PolicySummary} (h : s ∈ pipelineSummaries fs idx) : s.epIndex ∈ idx :=
  (pipelineSummaries_map_fst_sublist fs idx).mem
    (List.mem_map_of_mem PolicySummary.epIndex h)

lemma validTrajectories_perm {raws raws' : List RawTrajectory}
    (h : raws.Perm raws') :
    (validTrajectories raws).Perm (validTrajectories raws') :=
  h.filterMap _

lemma summarizeEpisode_perm (i : ℕ) {raws raws' : List RawTrajectory}
    (h : raws.Perm raws') :
    summarizeEpisode i raws = summarizeEpisode i raws' := by
  have hv : (validTrajectories raws).Perm (validTrajectories raws') :=
    validTrajectories_perm h
  unfold summarizeEpisode
  rcases eq_or_ne (validTrajectories raws) [] with he | he
  · have he' : validTrajectories raws' = [] := ((he ▸ hv).symm).eq_nil
    simp [he, he']
  · have he' : validTrajectories raws' ≠ [] := fun h0 => he ((h0 ▸ hv).eq_nil)
    have h1 := (hv.map trajMeanReward).sum_eq
    have h2 := (hv.map trajMeanActionMag).sum_eq
    have h3 := hv.length_eq
    rw [if_neg (by simpa [List.isEmpty_iff] using he),
      if_neg (by simpa [List.isEmpty_iff] using he'), h1, h2, h3]

lemma loadEpisodes_congr {fs fs' : FileSystem} {idx : List ℕ}
    (h : ∀ i ∈ idx, fs.files i = fs'.files i) :
    loadEpisodes fs idx = loadEpisodes fs' idx := by
  unfold loadEpisodes
  exact List.filterMap_congr (fun i hi => by rw [h i hi])

lemma pipelineSummaries_perm (fs : FileSystem) {idx idx' : List ℕ}
    (h : idx.Perm idx') :
    (pipelineSummaries fs idx).Perm (pipelineSummaries fs idx') :=
  (h.filterMap _).filterMap _

lemma validateTrajectory_error_eq {r : RawTrajectory} {e : PipelineError}
    (h : validateTrajectory r = Except.error e) :
    e = PipelineError.MalformedTrajectory := by
  obtain ⟨s, a, w, n, d, l⟩ := r
  cases s <;> cases a <;> cases w <;> cases n <;> cases d <;> cases l <;>
    simp_all [validateTrajectory]

lemma pipelineSummaries_find_eq {fs fs' : FileSystem} (idx : List ℕ) (i : ℕ)
    (h : fs.files i = fs'.files i) :
    (pipelineSummaries fs idx).find? (fun s => s.epIndex == i) =
      (pipelineSummaries fs' idx).find? (fun s => s.epIndex == i) := by
  induction idx with
  | nil => rfl
  | cons j rest ih =>
      rw [pipelineSummaries_cons, pipelineSummaries_cons]
      rcases eq_or_ne j i with rfl | hne
      · have hc : episodeContribution fs j = episodeContribution fs' j := by
          unfold episodeContribution; rw [h]
        rw [hc]
        cases hcc : episodeContribution fs' j with
        | none => simpa using ih
        | some s =>
            have hsi : s.epIndex = j := episodeContribution_epIndex hcc
            have hb : (s.epIndex == j) = true := by simp [hsi]
            simp [List.find?_cons, hb]
      · have hf : ∀ (g : FileSystem) (tail : List PolicySummary),
            episodeContribution g j = episodeContribution g j →
            ((episodeContribution g j).toList ++ tail).find?
                (fun s => s.epIndex == i) =
              tail.find? (fun s => s.epIndex == i) := by
          intro g tail _
          cases hcg : episodeContribution g j with
          | none => simp
          | some s =>
              have hsj : s.epIndex = j := episodeContribution_epIndex hcg
              have hb : (s.epIndex == i) = false := by simp [hsj, hne]
              simp [List.find?_cons, hb]
        rw [hf fs _ rfl, hf fs' _ rfl]
        exact ih

/-- C1: the Policy Selector, given the per-episode `PolicySummary` records,
fails with `NoEpisodes` if and only if the input set is empty, and otherwise
returns the episode index of a summary whose mean reward is maximal. -/
theorem C1_policy_selector_spec :
    (∀ l : List PolicySummary,
      (selectBest l = Except.error PipelineError.NoEpisodes ↔ l = [])) ∧
    (∀ (l : List PolicySummary) (i : ℕ), selectBest l = Except.ok i →
      ∃ s ∈ l, s.epIndex = i ∧ ∀ t ∈ l, t.meanReward ≤ s.meanReward) := by
  refine ⟨selectBest_error_iff, ?_⟩
  intro l i h
  obtain ⟨s, hs, hi, hall⟩ := selectBest_ok_sound h
  refine ⟨s, hs, hi, fun t ht => ?_⟩
  rcases hall t ht with h' | ⟨h1, _⟩
  · exact le_of_lt h'
  · exact le_of_eq h1

theorem C1_policy_selector_spec_witness :
    ∃ s ∈ tieSummaries, s.epIndex = 1 ∧
      ∀ t ∈ tieSummaries, t.meanReward ≤ s.meanReward :=
  C1_policy_selector_spec.2 tieSummaries 1 (by
    simp only [selectBest, tieSummaries, List.map, summaryKey, List.foldl,
      betterOpt, betterKey]
    norm_num)

/-- C3: whenever episodes share the exactly equal maximal mean reward, the
Policy Selector selects the lowest episode index among them; in particular on
episodes 0, 1, 2 with mean rewards 1.2, 3.4, 3.4 it selects index 1. -/
theorem C3_tiebreak_spec :
    (∀ (l : List PolicySummary) (i : ℕ), selectBest l = Except.ok i →
      ∃ s ∈ l, s.epIndex = i ∧ ∀ t ∈ l,
        t.meanReward ≤ s.meanReward ∧
          (t.meanReward = s.meanReward → s.epIndex ≤ t.epIndex)) ∧
    selectBest tieSummaries = Except.ok 1 := by
  constructor
  · intro l i h
    obtain ⟨s, hs, hi, hall⟩ := selectBest_ok_sound h
    refine ⟨s, hs, hi, fun t ht => ?_⟩
    rcases hall t ht with h' | ⟨h1, h2⟩
    · refine ⟨le_of_lt h', fun he => ?_⟩
      have h'' : t.meanReward < s.meanReward := h'
      rw [he] at h''
      exact absurd h'' (lt_irrefl _)
    · exact ⟨le_of_eq h1, fun _ => h2⟩
  · simp only [selectBest, tieSummaries, List.map, summaryKey, List.foldl,
      betterOpt, betterKey]
    norm_num

theorem C3_tiebreak_spec_witness :
    ∃ s ∈ tieSummaries, s.epIndex = 1 ∧ ∀ t ∈ tieSummaries,
      t.meanReward ≤ s.meanReward ∧
        (t.meanReward = s.meanReward → s.epIndex ≤ t.epIndex) :=
  C3_tiebreak_spec.1 tieSummaries 1 C3_tiebreak_spec.2

/-- C2: for every Episode with at least one valid Trajectory, the Reward
Aggregator returns the arithmetic mean of per-trajectory rewards, each
trajectory (even of unequal length) averaged independently before
aggregation, and the result does not depend on the order of the
trajectories. -/
theorem C2_reward_aggregator_spec :
    (∀ (i : ℕ) (raws : List RawTrajectory), validTrajectories raws ≠ [] →
      ∃ s, summarizeEpisode i raws = some s ∧
        s.meanReward =
          ((validTrajectories raws).map
              (fun t => t.rewards.sum / (t.rewards.length : ℚ))).sum /
            ((validTrajectories raws).length : ℚ)) ∧
    (∀ (i : ℕ) (raws raws' : List RawTrajectory), raws.Perm raws' →
      summarizeEpisode i raws = summarizeEpisode i raws') := by
  constructor
  · intro i raws h
    have hform : summarizeEpisode i raws = some
        { epIndex := i
          meanReward := ((validTrajectories raws).map trajMeanReward).sum /
            (validTrajectories raws).length
          meanActionMagnitude :=
            ((validTrajectories raws).map trajMeanActionMag).sum /
              (validTrajectories raws).length } := by
      simp only [summarizeEpisode]
      rw [if_neg (by simpa [List.isEmpty_iff] using h)]
    exact ⟨_, hform, rfl⟩
  · intro i raws raws' h
    exact summarizeEpisode_perm i h

theorem C2_reward_aggregator_spec_witness :
    (∃ s, summarizeEpisode 0 [mkTraj [1, 3], mkTraj [6]] = some s ∧
      s.meanReward =
        ((validTrajectories [mkTraj [1, 3], mkTraj [6]]).map
            (fun t => t.rewards.sum / (t.rewards.length : ℚ))).sum /
          ((validTrajectories [mkTraj [1, 3], mkTraj [6]]).length : ℚ)) ∧
    summarizeEpisode 0 [mkTraj [1, 3], mkTraj [6]] =
      summarizeEpisode 0 [mkTraj [6], mkTraj [1, 3]] :=
  ⟨C2_reward_aggregator_spec.1 0 [mkTraj [1, 3], mkTraj [6]]
      (by simp [validTrajectories, validateTrajectory, mkTraj,
        Except.toOption]),
    C2_reward_aggregator_spec.2 0 _ _ (List.Perm.swap _ _ _)⟩

/-- C4: an Episode with zero valid Trajectories (for example one whose only
trajectory lacks a reward field) is excluded from selection entirely rather
than scored with a sentinel value, and `NoEpisodes` is raised exactly when
such exclusions empty the entire episode set. -/
theorem C4_exclusion_spec :
    (∀ (i : ℕ) (raws : List RawTrajectory), validTrajectories raws = [] →
      summarizeEpisode i raws = none) ∧
    (∀ (fs : FileSystem) (idx : List ℕ),
      runPipeline fs idx = Except.error PipelineError.NoEpisodes ↔
        pipelineSummaries fs idx = []) ∧
    summarizeEpisode 0 [noRewardTraj] = none ∧
    runPipeline fsOnlyInvalid [0] = Except.error PipelineError.NoEpisodes ∧
    runPipeline fsMixed [0, 1] = Except.ok 1 := by
  refine ⟨?_, ?_, ?_, ?_, ?_⟩
  · intro i raws h
    simp [summarizeEpisode, h]
  · intro fs idx
    exact selectBest_error_iff _
  · rfl
  · rfl
  · rfl

theorem C4_exclusion_spec_witness :
    summarizeEpisode 7 [noRewardTraj, noRewardTraj] = none :=
  C4_exclusion_spec.1 7 [noRewardTraj, noRewardTraj]
    (by simp [validTrajectories, validateTrajectory, noRewardTraj,
      Except.toOption])

/-- C5: the Trajectory Loader yields (episode index, trajectory list) pairs
in ascending episode order, one per discovered file, never renumbering; an
absent expected index is skipped with a `MissingFile` warning; for a run over
indices 0..3 with the file for index 2 missing, the pipeline completes, warns
about index 2, and selects the best among episodes 0, 1 and 3. -/
theorem C5_loader_spec :
    (∀ (fs : FileSystem) (idx : List ℕ), List.Pairwise (· < ·) idx →
      List.Pairwise (· < ·) ((loadEpisodes fs idx).map Prod.fst)) ∧
    (∀ (fs : FileSystem) (idx : List ℕ),
      (loadEpisodes fs idx).map Prod.fst =
        idx.filter (fun i => (fs.files i).isSome)) ∧
    (∀ (fs : FileSystem) (idx : List ℕ) (i : ℕ) (f : List RawTrajectory),
      (i, f) ∈ loadEpisodes fs idx → fs.files i = some f ∧ i ∈ idx) ∧
    (∀ (fs : FileSystem) (idx : List ℕ) (i : ℕ),
      i ∈ missingWarnings fs idx ↔ i ∈ idx ∧ fs.files i = none) ∧
    missingWarnings fsMissing2 [0, 1, 2, 3] = [2] ∧
    runPipeline fsMissing2 [0, 1, 2, 3] = Except.ok 1 := by
  refine ⟨?_, loadEpisodes_map_fst, ?_, missingWarnings_mem, ?_, ?_⟩
  · intro fs idx h
    rw [loadEpisodes_map_fst]
    exact h.sublist (List.filter_sublist idx)
  · intro fs idx i f h
    exact loadEpisodes_mem h
  · rfl
  · simp only [runPipeline, pipelineSummaries, loadEpisodes, fsMissing2,
      mkTraj, List.filterMap, summarizeEpisode, validTrajectories,
      validateTrajectory, trajMeanReward, trajMeanActionMag, selectBest,
      summaryKey, betterOpt, betterKey, Except.toOption, List.map, List.foldl]
    norm_num

theorem C5_loader_spec_witness :
    List.Pairwise (· < ·)
      ((loadEpisodes fsMissing2 [0, 1, 2, 3]).map Prod.fst) :=
  C5_loader_spec.1 fsMissing2 [0, 1, 2, 3] (by simp)

/-- C6: a loaded trajectory fails validation with `MalformedTrajectory` if
and only if one of its required named experience fields is absent, and the
error is recovered per-trajectory: the malformed trajectory is skipped and
counted, excluded from aggregation, while the remaining trajectories are
still processed. -/
theorem C6_malformed_spec :
    (∀ r : RawTrajectory,
      validateTrajectory r = Except.error PipelineError.MalformedTrajectory ↔
        (r.states = none ∨ r.actions = none ∨ r.rewards = none ∨
          r.nextStates = none ∨ r.drag = none ∨ r.lift = none)) ∧
    (∀ raws : List RawTrajectory,
      (validTrajectories raws).length + malformedCount raws = raws.length) ∧
    (∀ (bad : RawTrajectory) (raws : List RawTrajectory),
      validateTrajectory bad = Except.error PipelineError.MalformedTrajectory →
        validTrajectories (bad :: raws) = validTrajectories raws) := by
  refine ⟨?_, ?_, ?_⟩
  · intro r
    obtain ⟨s, a, w, n, d, l⟩ := r
    cases s <;> cases a <;> cases w <;> cases n <;> cases d <;> cases l <;>
      simp [validateTrajectory]
  · intro raws
    induction raws with
    | nil => rfl
    | cons r rest ih =>
        unfold validTrajectories malformedCount at ih ⊢
        cases h : (validateTrajectory r).toOption <;>
          simp [List.filterMap_cons, List.countP_cons, h] <;> omega
  · intro bad raws h
    unfold validTrajectories
    rw [List.filterMap_cons]
    simp [h, Except.toOption]

theorem C6_malformed_spec_witness :
    validTrajectories [noRewardTraj, mkTraj [1]] =
      validTrajectories [mkTraj [1]] :=
  C6_malformed_spec.2.2 noRewardTraj [mkTraj [1]] rfl

/-- C7: the pipeline is deterministic and idempotent: its selected episode
index and per-episode summaries are functions of the input files alone, so
two runs over filesystems whose files agree on the requested indices yield
identical summaries and an identical selected index; there is no persistent
state a run could depend on. -/
theorem C7_determinism_spec :
    ∀ (fs fs' : FileSystem) (idx : List ℕ),
      (∀ i ∈ idx, fs.files i = fs'.files i) →
        pipelineSummaries fs idx = pipelineSummaries fs' idx ∧
          runPipeline fs idx = runPipeline fs' idx := by
  intro fs fs' idx h
  have hl : loadEpisodes fs idx = loadEpisodes fs' idx := loadEpisodes_congr h
  have hs : pipelineSummaries fs idx = pipelineSummaries fs' idx := by
    unfold pipelineSummaries
    rw [hl]
  refine ⟨hs, ?_⟩
  unfold runPipeline
  rw [hs]

theorem C7_determinism_spec_witness :
    pipelineSummaries fsA [0, 1] = pipelineSummaries fsB [0, 1] ∧
      runPipeline fsA [0, 1] = runPipeline fsB [0, 1] :=
  C7_determinism_spec fsA fsB [0, 1]
    (by intro i hi; fin_cases hi <;> rfl)

/-- C8: the Metric Extractor is a pure function from a Trajectory to the
fixed record of time-indexed drag, lift and expected control-action series,
and extraction from a raw record has no failure mode other than propagating
`MalformedTrajectory` from validation. -/
theorem C8_extractor_spec :
    (∀ t : Trajectory, extractMetrics t =
      { dragSeries := t.drag, liftSeries := t.lift,
        actionSeries := t.actions }) ∧
    (∀ (r : RawTrajectory) (e : PipelineError),
      extractMetricsRaw r = Except.error e →
        e = PipelineError.MalformedTrajectory) ∧
    (∀ (r : RawTrajectory) (t : Trajectory),
      validateTrajectory r = Except.ok t →
        extractMetricsRaw r = Except.ok (extractMetrics t)) := by
  refine ⟨fun t => rfl, ?_, ?_⟩
  · intro r e h
    unfold extractMetricsRaw at h
    cases hv : validateTrajectory r with
    | ok t =>
        rw [hv] at h
        exact absurd h (by simp [Except.map])
    | error e' =>
        rw [hv] at h
        have he : e' = e := by simpa [Except.map] using h
        exact he ▸ validateTrajectory_error_eq hv
  · intro r t h
    unfold extractMetricsRaw
    rw [h]
    rfl

theorem C8_extractor_spec_witness :
    extractMetricsRaw (mkTraj [1]) =
      Except.ok (extractMetrics ⟨[], [1], [1], [], [], []⟩) :=
  C8_extractor_spec.2.2 (mkTraj [1]) ⟨[], [1], [1], [], [], []⟩ rfl

/-- C9: the summary computed for episode index i depends only on the file of
episode i: runs over filesystems agreeing at index i produce the same
summary for i; summaries carry unique episode indices whenever the requested
indices are unique, and every summary's index is one of the requested
episode indices. -/
theorem C9_locality_spec :
    (∀ (fs fs' : FileSystem) (idx : List ℕ) (i : ℕ),
      fs.files i = fs'.files i →
        (pipelineSummaries fs idx).find? (fun s => s.epIndex == i) =
          (pipelineSummaries fs' idx).find? (fun s => s.epIndex == i)) ∧
    (∀ (fs : FileSystem) (idx : List ℕ), idx.Nodup →
      ((pipelineSummaries fs idx).map PolicySummary.epIndex).Nodup) ∧
    (∀ (fs : FileSystem) (idx : List ℕ) (s : PolicySummary),
      s ∈ pipelineSummaries fs idx → s.epIndex ∈ idx) := by
  refine ⟨?_, ?_, ?_⟩
  · intro fs fs' idx i h
    exact pipelineSummaries_find_eq idx i h
  · intro fs idx h
    exact h.sublist (pipelineSummaries_map_fst_sublist fs idx)
  · intro fs idx s h
    exact pipelineSummaries_mem_fst h

theorem C9_locality_spec_witness :
    (pipelineSummaries fsA [0, 1]).find? (fun s => s.epIndex == 1) =
      (pipelineSummaries fsB [0, 1]).find? (fun s => s.epIndex == 1) :=
  C9_locality_spec.1 fsA fsB [0, 1] 1 rfl

/-- C10: processing episodes in any order yields the same per-episode
summaries (up to permutation) and the same selected index as ascending-order
processing: the pipeline is permutation-invariant in the episode order, so
ordering by index is a presentation-only step. -/
theorem C10_perm_invariance_spec :
    ∀ (fs : FileSystem) (idx idx' : List ℕ), idx.Perm idx' →
      (pipelineSummaries fs idx).Perm (pipelineSummaries fs idx') ∧
        runPipeline fs idx = runPipeline fs idx' := by
  intro fs idx idx' h
  have hp := pipelineSummaries_perm fs h
  refine ⟨hp, ?_⟩
  unfold runPipeline
  exact selectBest_perm hp

theorem C10_perm_invariance_spec_witness :
    (pipelineSummaries fsMissing2 [0, 1, 2, 3]).Perm
        (pipelineSummaries fsMissing2 [3, 1, 0, 2]) ∧
      runPipeline fsMissing2 [0, 1, 2, 3] =
        runPipeline fsMissing2 [3, 1, 0, 2] :=
  C10_perm_invariance_spec fsMissing2 [0, 1, 2, 3] [3, 1, 0, 2] (by decide)
